import Mathlib

/-!
Verification of the SCons Fortran dependency scanner
(src/engine/SCons/Scanner/Fortran.py).

The scanner extracts raw INCLUDE references from Fortran source text with
the regular expression

  INCLUDE[ \t]+'([\w./\\]+)'

(`include_re.findall`), resolves each reference against the directory of the
including file followed by the F77PATH directories (`SCons.Node.FS.find_file`),
caches raw references on the node (`node.includes`) and resolved lists per
search path (`node.found_includes`), warns about unresolved references, and
returns the resolved nodes sorted by their case-normalised path
(a Schwartzian transform keyed on `SCons.Node.FS._my_normcase(str(node))`).

Nodes are modelled by their path strings; the filesystem by the list of
(directory, filename) pairs that exist.  File contents are lists of
characters.  Machinery that lives outside the sampled source
(`find_file`, `_my_normcase`, the recursive scanner driver and the node
lifecycle) is modelled from the spec and marked as such.
-/

namespace SconsFortran

/-! ### Character classes of the include regular expression -/

/-- The class `[ \t]` of the include regular expression. -/
def spaceChar (c : Char) : Bool := c = ' ' || c = '\t'

/-- The single-quote character that delimits the file name in an INCLUDE
directive (written via its code point to keep the development 7-bit clean). -/
def quoteChar : Char := Char.ofNat 39

/-- The class `[\w./\\]` of the include regular expression: Python `\w`
(ASCII word characters, since the pattern is compiled without locale or
unicode flags) together with dot, forward slash and backslash. -/
def nameChar (c : Char) : Bool :=
  (('a' ≤ c) && (c ≤ 'z')) || (('A' ≤ c) && (c ≤ 'Z')) || (('0' ≤ c) && (c ≤ '9')) ||
    c = '_' || c = '.' || c = '/' || c = '\\'

/-- The literal `INCLUDE` keyword of the regular expression. -/
def inclChars : List Char := ['I', 'N', 'C', 'L', 'U', 'D', 'E']

/-- Attempt to match the include regular expression at the head of `l`.
The pattern `INCLUDE[ \t]+'([\w./\\]+)'` is anchored here at position 0:
the literal keyword, a maximal nonempty run of blanks, a quote, a maximal
nonempty run of name characters (the captured group) and a closing quote.
Greedy matching needs no backtracking because neither character class
contains the quote.  Returns the captured group and the remainder of the
input after the match. -/
def tryMatch (l : List Char) : Option (List Char × List Char) :=
  let body := l.drop 7
  let sp := body.takeWhile spaceChar
  let afterSp := body.dropWhile spaceChar
  let nm := afterSp.tail.takeWhile nameChar
  let afterNm := afterSp.tail.dropWhile nameChar
  if l.take 7 = inclChars ∧ sp ≠ [] ∧ afterSp.head? = some quoteChar ∧
      nm ≠ [] ∧ afterNm.head? = some quoteChar then
    some (nm, afterNm.tail)
  else
    none

/-- Fuelled scanning loop of `include_re.findall`: try a match at every
position from left to right; on a match, emit the captured group and resume
after the consumed text, exactly as Python `re.findall` does with
non-overlapping matches.  One unit of fuel is spent per step, and each step
consumes at least one character, so `l.length` fuel always suffices. -/
def findallAux : Nat → List Char → List (List Char)
  | 0, _ => []
  | _ + 1, [] => []
  | fuel + 1, c :: rest =>
    match tryMatch (c :: rest) with
    | some (nm, r) => nm :: findallAux fuel r
    | none => findallAux fuel rest

/-- `include_re.findall(contents)`: the raw include references extracted
from `contents`, in order of appearance. -/
def findall (l : List Char) : List (List Char) := findallAux l.length l

/-- The exact text matched by the include regular expression when the blank
run is `sp`, the captured file name is `nm` and `suf` is the remaining
input after the match. -/
def matchShape (sp nm suf : List Char) : List Char :=
  inclChars ++ sp ++ quoteChar :: (nm ++ quoteChar :: suf)

/-- A nonempty run of blanks. -/
def GoodSpaces (sp : List Char) : Prop := sp ≠ [] ∧ ∀ c ∈ sp, spaceChar c = true

/-- A nonempty run of file-name characters. -/
def GoodName (nm : List Char) : Prop := nm ≠ [] ∧ ∀ c ∈ nm, nameChar c = true

instance (sp : List Char) : Decidable (GoodSpaces sp) :=
  inferInstanceAs (Decidable (sp ≠ [] ∧ ∀ c ∈ sp, spaceChar c = true))

instance (nm : List Char) : Decidable (GoodName nm) :=
  inferInstanceAs (Decidable (nm ≠ [] ∧ ∀ c ∈ nm, nameChar c = true))

/-- The text `t` begins with a Fortran INCLUDE directive whose file name is
`nm`: the INCLUDE keyword, at least one blank, and the quoted name. -/
def DirectiveShape (t nm : List Char) : Prop :=
  ∃ sp suf, t = matchShape sp nm suf ∧ GoodSpaces sp ∧ GoodName nm

/-- Some position of `s` starts a Fortran INCLUDE directive whose file name
is `nm`. -/
def DirectiveIn (s nm : List Char) : Prop := ∃ i, DirectiveShape (s.drop i) nm

/-! ### The node model and the scan function -/

/-- An artifact node, modelled by the data the scanner touches: `str(node)`
(its path), `node.get_dir()`, `node.rexists()`, `node.get_contents()`, and
the two cache slots `node.includes` (raw references, `None` until the first
content scan) and `node.found_includes` (resolved node lists keyed by the
search-path tuple). -/
structure FNode where
  path : String
  dir : String
  rexists : Bool
  contents : List Char
  includes : Option (List (List Char))
  found_includes : List (List String × List String)
deriving DecidableEq

/-- The target of the scan, carrying the cached `target.f77path` attribute
(`none` models the attribute not yet being set). -/
structure FTarget where
  f77path : Option (List String)
deriving DecidableEq

/-- A warning event passed to `SCons.Warnings.warn`: the warning class and
the formatted message. -/
structure Warning where
  wclass : String
  message : String
deriving DecidableEq

/-- Path of the file `name` inside directory `d`. -/
def mkPath (d name : String) : String := d ++ "/" ++ name

/-- The string holding the characters `l`. -/
def strOf (l : List Char) : String := String.mk l

/-- Modelled from the spec: `SCons.Node.FS.find_file` is not under src/.
Per the spec, the Path Resolver, "given an include-like name and an ordered
list of candidate directories, finds the first existing matching artifact"
and "returns the first existing match; ties ... are broken by search-order
position, first match wins". -/
def find_file (name : String) (fs : List (String × String)) : List String → Option String
  | [] => none
  | d :: ds => if (d, name) ∈ fs then some (mkPath d name) else find_file name fs ds

/-- The warning emitted for an unresolved reference, with the message
exactly as formatted by the scanner:
`"No dependency generated for file: %s (included from: %s) -- file not found" % (include, node)`. -/
def mkDepWarning (ref : String) (fromPath : String) : Warning :=
  ⟨"DependencyWarning",
    "No dependency generated for file: " ++ ref ++ " (included from: " ++ fromPath ++
      ") -- file not found"⟩

/-- The resolution loop of `scan`: for each raw reference in order, call
`find_file` on the includer base directory followed by the search path; append
the resolved node, or emit one dependency warning when nothing is found. -/
def resolveIncludes (fs : List (String × String)) (dirs : List String) (fromPath : String) :
    List (List Char) → List String × List Warning
  | [] => ([], [])
  | ref :: rest =>
    let r := resolveIncludes fs dirs fromPath rest
    match find_file (strOf ref) fs dirs with
    | some n => (n :: r.1, r.2)
    | none => (r.1, mkDepWarning (strOf ref) fromPath :: r.2)

/-- Dictionary lookup in the `found_includes` cache, keyed by the
search-path tuple. -/
def lookupPath : List (List String × List String) → List String → Option (List String)
  | [], _ => none
  | (k, v) :: rest, key => if k = key then some v else lookupPath rest key

/-- Modelled from the spec: `SCons.Node.FS._my_normcase` is not under src/.
The spec orders dependency lists by "a normalized key (case-folded ...
path string)"; on case-insensitive platforms `_my_normcase` folds the path
to a single case. -/
def _my_normcase (s : String) : String := ⟨s.data.map Char.toLower⟩

/-- The pairing step of the Schwartzian transform in `scan`:
each node is paired with its normalised path string. -/
def pairing (n : String) : String × String := (_my_normcase n, n)

/-- Kernel-computable lexicographic order on character lists, used to model
Python string comparison when the paired list is sorted. -/
def clLe : List Char → List Char → Bool
  | [], _ => true
  | _ :: _, [] => false
  | a :: as, b :: bs => if a < b then true else if b < a then false else clLe as bs

/-- Lexicographic comparison of (normalised key, node) pairs, as performed
by `paired.sort()` on the pair tuples. -/
def pairLeB (x y : String × String) : Bool :=
  if x.1 = y.1 then clLe x.2.data y.2.data else clLe x.1.data y.1.data

/-- Propositional form of `pairLeB`. -/
def pairLe (x y : String × String) : Prop := pairLeB x y = true

instance : DecidableRel pairLe := fun x y => inferInstanceAs (Decidable (pairLeB x y = true))

/-- The Schwartzian transform `st` of `scan`: pair every node with its
normalised path, sort the pairs, and strip the keys. -/
def st (ns : List String) : List String :=
  ((ns.map pairing).insertionSort pairLe).map Prod.snd

/-- Order of nodes by their case-normalised path strings. -/
def normLe (a b : String) : Prop := clLe (_my_normcase a).data (_my_normcase b).data = true

/-- The `target.f77path` computation of `scan`: reuse the cached attribute
when it is set; otherwise read `env['F77PATH']`, a `KeyError` (no such
construction variable) being caught and turned into the empty tuple. -/
def effPath (env : Option (List String)) (tgt : FTarget) : List String :=
  match tgt.f77path with
  | some p => p
  | none => env.getD []

/-- The body of `scan` once the search path `p` is known: serve the
resolved list from `node.found_includes[p]` when present; otherwise, if the
node exists, extract the raw references (reusing `node.includes` when
cached), resolve them against the includer directory followed by `p`, and
cache the resolved list; a node that does not exist caches and yields the
empty list.  Every branch returns through the Schwartzian transform. -/
def scanCore (fs : List (String × String)) (p : List String) (node : FNode) :
    List String × FNode × List Warning :=
  match lookupPath node.found_includes p with
  | some ns => (st ns, node, [])
  | none =>
    if node.rexists then
      let incs := node.includes.getD (findall node.contents)
      let res := resolveIncludes fs (node.dir :: p) node.path incs
      (st res.1,
        { node with includes := some incs, found_includes := (p, res.1) :: node.found_includes },
        res.2)
    else
      (st [], { node with found_includes := (p, []) :: node.found_includes }, [])

/-- The scanner entry point `scan(node, env, target)`: compute (and cache)
the search path on the target, then run the cached or fresh per-node scan.
Returns the sorted dependency list, the updated target and node states, and
the warnings emitted. -/
def scan (fs : List (String × String)) (env : Option (List String)) (tgt : FTarget)
    (node : FNode) : List String × FTarget × FNode × List Warning :=
  let p := effPath env tgt
  let r := scanCore fs p node
  (r.1, ⟨some p⟩, r.2.1, r.2.2)

/-- Modelled from the spec: content-signature invalidation is not under
src/ (it lives in the node lifecycle of SCons.Node).  Per the spec, "raw
include references, once computed for a given content signature, are
immutable and reused until the signature changes", and resolved-list cache
entries "must be invalidated whenever the underlying raw-reference list
they depend on is invalidated"; so giving a node new content drops both
per-node cache slots. -/
def setContents (node : FNode) (c : List Char) : FNode :=
  { node with contents := c, includes := none, found_includes := [] }

/-- Modelled from the spec: production of a not-yet-existing node is not
under src/ (it lives in the node lifecycle of SCons.Node).  Per the spec,
"the graph will re-scan once the node exists, on a later build pass": when
the artifact is produced it exists, carries its new content, and its
per-pass scan caches start empty. -/
def produce (node : FNode) (c : List Char) : FNode :=
  { node with rexists := true, contents := c, includes := none, found_includes := [] }

/-- Modelled from the spec: the Recursive Scan Driver
(`SCons.Scanner.Recursive`, wrapped by `FortranScan`) is not under src/.
Per the spec it recursively accumulates the transitive closure of the
per-node scan, tracking a currently-visiting set per top-level request and
stopping, without error, at a revisit.  `tbl` maps a path to its node,
`fuel` bounds the recursion depth structurally. -/
def deepScan (tbl : String → Option FNode) (fs : List (String × String))
    (env : Option (List String)) (p : List String) :
    Nat → List String → String → List String
  | 0, _, _ => []
  | fuel + 1, visiting, path =>
    if path ∈ visiting then []
    else
      match tbl path with
      | none => []
      | some node =>
        let deps := (scan fs env ⟨some p⟩ node).1
        deps ++ deps.foldr (fun d acc => deepScan tbl fs env p fuel (path :: visiting) d ++ acc) []

/-! ### Concrete fixtures used by witnesses and counterexamples -/

/-- The newline character. -/
def newline : Char := Char.ofNat 10

/-- Contents holding a single INCLUDE directive for `name`. -/
def contentsIncl (name : String) : List Char :=
  "INCLUDE ".data ++ quoteChar :: (name.data ++ [quoteChar])

/-- Contents with the same directive for `a.inc` twice, on two lines. -/
def contentsAA : List Char := contentsIncl "a.inc" ++ newline :: contentsIncl "a.inc"

/-- A fresh (never scanned) source node in directory `S` with contents `c`. -/
def freshNode (c : List Char) : FNode := ⟨"S/main.f", "S", true, c, none, []⟩

/-- Node of a two-file include cycle: `a.f` includes `b.f`. -/
def nodeA8 : FNode := ⟨"S/a.f", "S", true, contentsIncl "b.f", none, []⟩

/-- Node of a two-file include cycle: `b.f` includes `a.f`. -/
def nodeB8 : FNode := ⟨"S/b.f", "S", true, contentsIncl "a.f", none, []⟩

/-- Node table of the two-file include cycle. -/
def tbl8 : String → Option FNode :=
  fun s => if s = "S/a.f" then some nodeA8 else if s = "S/b.f" then some nodeB8 else none

/-- Filesystem of the two-file include cycle. -/
def fs8 : List (String × String) := [("S", "a.f"), ("S", "b.f")]

/-- A node whose raw-reference cache already holds one resolvable and one
unresolvable reference. -/
def nodeC5 : FNode := ⟨"S/main.f", "S", true, [], some ["a.inc".data, "missing.h".data], []⟩

/-- A node that does not exist on storage yet. -/
def nodeC6 : FNode := ⟨"S/main.f", "S", false, [], none, []⟩

/-- A node whose raw-reference cache holds the same reference twice. -/
def nodeC7 : FNode := ⟨"S/main.f", "S", true, [], some ["a.inc".data, "a.inc".data], []⟩

/-! ### Lemmas about the include matcher -/

theorem spaceChar_quote : spaceChar quoteChar = false := by decide

theorem nameChar_quote : nameChar quoteChar = false := by decide

theorem space_not_name {c : Char} (h : spaceChar c = true) : nameChar c = false := by
  have hc : c = ' ' ∨ c = '\t' := by simpa [spaceChar] using h
  rcases hc with rfl | rfl <;> decide

theorem takeWhile_all_append {p : Char → Bool} {xs : List Char} (y : Char) (ys : List Char)
    (hx : ∀ c ∈ xs, p c = true) (hy : p y = false) :
    (xs ++ y :: ys).takeWhile p = xs ∧ (xs ++ y :: ys).dropWhile p = y :: ys := by
  induction xs with
  | nil => simp [List.takeWhile_cons, List.dropWhile_cons, hy]
  | cons a as ih =>
    have ha : p a = true := hx a (by simp)
    have ih2 := ih (fun c hc => hx c (by simp [hc]))
    simp [List.takeWhile_cons, List.dropWhile_cons, ha, ih2.1, ih2.2]

theorem matchShape_assoc (sp nm suf : List Char) :
    matchShape sp nm suf = inclChars ++ (sp ++ (quoteChar :: (nm ++ quoteChar :: suf))) := by
  simp [matchShape, List.append_assoc]

theorem matchShape_length (sp nm suf : List Char) :
    (matchShape sp nm suf).length = 9 + sp.length + nm.length + suf.length := by
  simp [matchShape, inclChars]
  omega

/-- Soundness of the anchored matcher: on text of exactly the directive
shape it matches and captures the directive's file name. -/
theorem tryMatch_shape {sp nm : List Char} (suf : List Char) (hsp : GoodSpaces sp)
    (hnm : GoodName nm) : tryMatch (matchShape sp nm suf) = some (nm, suf) := by
  obtain ⟨hsp0, hspall⟩ := hsp
  obtain ⟨hnm0, hnmall⟩ := hnm
  have hassoc := matchShape_assoc sp nm suf
  have htake : (matchShape sp nm suf).take 7 = inclChars := by
    rw [hassoc, show (7 : Nat) = inclChars.length from rfl, List.take_left]
  have hdrop : (matchShape sp nm suf).drop 7 = sp ++ (quoteChar :: (nm ++ quoteChar :: suf)) := by
    rw [hassoc, show (7 : Nat) = inclChars.length from rfl, List.drop_left]
  have hsp2 := takeWhile_all_append quoteChar (nm ++ quoteChar :: suf) hspall spaceChar_quote
  have hnm2 := takeWhile_all_append quoteChar suf hnmall nameChar_quote
  simp only [tryMatch, htake, hdrop, hsp2.1, hsp2.2, List.head?_cons, List.tail_cons,
    hnm2.1, hnm2.2]
  simp [hsp0, hnm0]

/-- Inversion of the anchored matcher: a successful match decomposes the
input into exactly the directive shape. -/
theorem tryMatch_some {l nm r : List Char} (h : tryMatch l = some (nm, r)) :
    ∃ sp, l = matchShape sp nm r ∧ GoodSpaces sp ∧ GoodName nm := by
  simp only [tryMatch] at h
  split_ifs at h with hc
  · obtain ⟨h1, h2, h3, h4, h5⟩ := hc
    rw [Option.some_inj, Prod.mk.injEq] at h
    obtain ⟨hnm, hr⟩ := h
    subst hnm
    subst hr
    cases hA1 : (l.drop 7).dropWhile spaceChar with
    | nil => rw [hA1] at h3; simp at h3
    | cons a T =>
      rw [hA1] at h3 h4 h5
      simp only [List.head?_cons, Option.some_inj] at h3
      subst h3
      simp only [List.tail_cons] at h4 h5 ⊢
      cases hA2 : T.dropWhile nameChar with
      | nil => rw [hA2] at h5; simp at h5
      | cons b R =>
        rw [hA2] at h5
        simp only [List.head?_cons, Option.some_inj] at h5
        subst h5
        simp only [List.tail_cons]
        refine ⟨(l.drop 7).takeWhile spaceChar, ?_,
          ⟨h2, fun c hc2 => List.mem_takeWhile_imp hc2⟩,
          ⟨h4, fun c hc2 => List.mem_takeWhile_imp hc2⟩⟩
        rw [matchShape_assoc, ← h1]
        conv_lhs => rw [← List.take_append_drop 7 l]
        congr 1
        conv_lhs => rw [← List.takeWhile_append_dropWhile spaceChar (l.drop 7)]
        congr 1
        rw [hA1]
        congr 1
        conv_lhs => rw [← List.takeWhile_append_dropWhile nameChar T]
        congr 1

theorem inclChars_length : inclChars.length = 7 := rfl

theorem tryMatch_some_length {l nm r : List Char} (h : tryMatch l = some (nm, r)) :
    r.length < l.length := by
  obtain ⟨sp, hl, _, _⟩ := tryMatch_some h
  rw [hl, matchShape_length]
  omega

theorem matchShape_split (sp nm suf : List Char) :
    matchShape sp nm suf = matchShape sp nm [] ++ suf := by
  simp [matchShape, List.append_assoc]

/-- The fuelled scanning loop does not depend on the exact fuel, as long as
there is at least one unit per remaining character. -/
theorem findallAux_fuel : ∀ f g (l : List Char), l.length ≤ f → l.length ≤ g →
    findallAux f l = findallAux g l := by
  intro f
  induction f with
  | zero =>
    intro g l hf _
    have hl : l = [] := List.eq_nil_of_length_eq_zero (Nat.le_zero.mp hf)
    subst hl
    cases g <;> rfl
  | succ f ih =>
    intro g l hf hg
    cases l with
    | nil => cases g <;> rfl
    | cons c rest =>
      cases g with
      | zero => simp at hg
      | succ g =>
        simp only [findallAux]
        cases hm : tryMatch (c :: rest) with
        | none =>
          simp only [List.length_cons] at hf hg
          exact ih g rest (by omega) (by omega)
        | some pr =>
          obtain ⟨nm, r⟩ := pr
          have hlen := tryMatch_some_length hm
          simp only [List.length_cons] at hf hg hlen
          exact congrArg (List.cons nm) (ih g r (by omega) (by omega))

/-- A list position holding an element of an all-`p` list. -/
theorem getElem?_all {p : Char → Bool} {xs : List Char} (j : Nat)
    (hall : ∀ c ∈ xs, p c = true) (hj : j < xs.length) :
    ∃ c, xs[j]? = some c ∧ p c = true :=
  ⟨xs[j], List.getElem?_eq_getElem hj, hall _ (List.getElem_mem hj)⟩

/-- No position strictly inside the text consumed by a successful match can
start an INCLUDE directive: the span is INCLUDE-blanks-quote-name-quote, and
each candidate inner position fails the keyword-then-blank test. -/
theorem no_directive_inside {sp nmx r nm : List Char} {i : Nat}
    (hspall : ∀ c ∈ sp, spaceChar c = true) (hnmall : ∀ c ∈ nmx, nameChar c = true)
    (hge1 : 1 ≤ i) (hlt : i < 9 + sp.length + nmx.length)
    (hdir : DirectiveShape ((matchShape sp nmx r).drop i) nm) : False := by
  obtain ⟨sp2, suf2, ht, ⟨hsp20, hsp2all⟩, _⟩ := hdir
  have hd0 : ∀ j, j < 7 → (matchShape sp nmx r)[i + j]? = inclChars[j]? := by
    intro j hj
    have e : ((matchShape sp nmx r).drop i)[j]? = inclChars[j]? := by
      rw [ht, matchShape_assoc]
      exact List.getElem?_append_left (by rw [inclChars_length]; exact hj)
    rw [List.getElem?_drop] at e
    exact e
  have hd7 : ∃ c, (matchShape sp nmx r)[i + 7]? = some c ∧ spaceChar c = true := by
    obtain ⟨c, hc, hpc⟩ := getElem?_all 0 hsp2all (List.length_pos.mpr hsp20)
    refine ⟨c, ?_, hpc⟩
    have e : ((matchShape sp nmx r).drop i)[7]? = some c := by
      rw [ht, matchShape_assoc,
        List.getElem?_append_right (by rw [inclChars_length]), inclChars_length]
      simp only [Nat.sub_self]
      rw [List.getElem?_append_left (List.length_pos.mpr hsp20)]
      exact hc
    rw [List.getElem?_drop] at e
    exact e
  have hS0 : ∀ j, j < 7 → (matchShape sp nmx r)[j]? = inclChars[j]? := by
    intro j hj
    rw [matchShape_assoc]
    exact List.getElem?_append_left (by rw [inclChars_length]; exact hj)
  have hS1 : ∀ j, j < sp.length →
      ∃ c, (matchShape sp nmx r)[7 + j]? = some c ∧ spaceChar c = true := by
    intro j hj
    obtain ⟨c, hc, hpc⟩ := getElem?_all j hspall hj
    refine ⟨c, ?_, hpc⟩
    rw [matchShape_assoc,
      List.getElem?_append_right (by rw [inclChars_length]; omega), inclChars_length,
      Nat.add_sub_cancel_left, List.getElem?_append_left hj]
    exact hc
  have hS2 : (matchShape sp nmx r)[7 + sp.length]? = some quoteChar := by
    rw [matchShape_assoc,
      List.getElem?_append_right (by rw [inclChars_length]; omega), inclChars_length,
      Nat.add_sub_cancel_left, List.getElem?_append_right le_rfl]
    simp
  have hS3 : ∀ j, j < nmx.length →
      ∃ c, (matchShape sp nmx r)[8 + sp.length + j]? = some c ∧ nameChar c = true := by
    intro j hj
    obtain ⟨c, hc, hpc⟩ := getElem?_all j hnmall hj
    refine ⟨c, ?_, hpc⟩
    rw [matchShape_assoc,
      List.getElem?_append_right (by rw [inclChars_length]; omega), inclChars_length,
      show 8 + sp.length + j - 7 = sp.length + (j + 1) from by omega,
      List.getElem?_append_right (by omega),
      show sp.length + (j + 1) - sp.length = j + 1 from by omega,
      List.getElem?_cons_succ, List.getElem?_append_left hj]
    exact hc
  have hS4 : (matchShape sp nmx r)[8 + sp.length + nmx.length]? = some quoteChar := by
    rw [matchShape_assoc,
      List.getElem?_append_right (by rw [inclChars_length]; omega), inclChars_length,
      show 8 + sp.length + nmx.length - 7 = sp.length + (nmx.length + 1) from by omega,
      List.getElem?_append_right (by omega),
      show sp.length + (nmx.length + 1) - sp.length = nmx.length + 1 from by omega,
      List.getElem?_cons_succ, List.getElem?_append_right le_rfl]
    simp
  rcases Nat.lt_or_ge i 7 with hA | hge7
  · have e1 := hd0 0 (by omega)
    simp only [Nat.add_zero] at e1
    rw [hS0 i hA] at e1
    interval_cases i <;> exact absurd e1 (by decide)
  · rcases Nat.lt_or_ge i (7 + sp.length) with hB | hgeB
    · obtain ⟨c, hc, hpc⟩ := hS1 (i - 7) (by omega)
      rw [show 7 + (i - 7) = i from by omega] at hc
      have e1 := hd0 0 (by omega)
      simp only [Nat.add_zero] at e1
      rw [hc] at e1
      have hcI : c = 'I' := by simpa [inclChars] using e1
      subst hcI
      exact absurd hpc (by decide)
    · rcases Nat.lt_or_ge i (8 + sp.length) with hC | hgeC
      · have hi : i = 7 + sp.length := by omega
        have e1 := hd0 0 (by omega)
        simp only [Nat.add_zero] at e1
        rw [hi, hS2] at e1
        exact absurd e1 (by decide)
      · rcases Nat.lt_or_ge i (8 + sp.length + nmx.length) with hD | hgeD
        · obtain ⟨c, hc7, hpc7⟩ := hd7
          rcases Nat.lt_or_ge (i + 7) (8 + sp.length + nmx.length) with hD1 | hD2
          · obtain ⟨c2, hc2, hname⟩ := hS3 (i + 7 - (8 + sp.length)) (by omega)
            rw [show 8 + sp.length + (i + 7 - (8 + sp.length)) = i + 7 from by omega] at hc2
            rw [hc7] at hc2
            have hcc : c = c2 := by simpa using hc2
            have h6 := space_not_name (hcc ▸ hpc7)
            simp [hname] at h6
          · rcases Nat.lt_or_ge (8 + sp.length + nmx.length) (i + 7) with hD3 | hD4
            · have ed := hd0 (8 + sp.length + nmx.length - i) (by omega)
              rw [show i + (8 + sp.length + nmx.length - i) = 8 + sp.length + nmx.length
                from by omega, hS4] at ed
              set j := 8 + sp.length + nmx.length - i with hjdef
              have hj1 : 1 ≤ j := by omega
              have hj2 : j < 7 := by omega
              interval_cases j <;> exact absurd ed (by decide)
            · have hi7 : i + 7 = 8 + sp.length + nmx.length := by omega
              rw [hi7, hS4] at hc7
              have hcq : c = quoteChar := by simpa using hc7.symm
              subst hcq
              exact absurd hpc7 (by decide)
        · have hi : i = 8 + sp.length + nmx.length := by omega
          have e1 := hd0 0 (by omega)
          simp only [Nat.add_zero] at e1
          rw [hi, hS4] at e1
          exact absurd e1 (by decide)

/-- Completeness of the scanning loop: any directive occurring anywhere in
the input (at any position, also past text already consumed by earlier
matches) has its captured file name in the output list. -/
theorem directive_mem_findallAux :
    ∀ (fuel : Nat) (l : List Char) (i : Nat) (nm : List Char), l.length ≤ fuel →
      DirectiveShape (l.drop i) nm → nm ∈ findallAux fuel l := by
  intro fuel
  induction fuel with
  | zero =>
    intro l i nm hf hdir
    have hl : l = [] := List.eq_nil_of_length_eq_zero (Nat.le_zero.mp hf)
    subst hl
    obtain ⟨sp, suf, ht, _, _⟩ := hdir
    simp only [List.drop_nil] at ht
    have hlen := congrArg List.length ht
    rw [matchShape_length] at hlen
    simp only [List.length_nil] at hlen
    omega
  | succ fuel ih =>
    intro l i nm hf hdir
    cases l with
    | nil =>
      obtain ⟨sp, suf, ht, _, _⟩ := hdir
      simp only [List.drop_nil] at ht
      have hlen := congrArg List.length ht
      rw [matchShape_length] at hlen
      simp only [List.length_nil] at hlen
      omega
    | cons c rest =>
      cases hm : tryMatch (c :: rest) with
      | some pr =>
        obtain ⟨nm1, r⟩ := pr
        obtain ⟨sp1, hl1, hgs1, hgn1⟩ := tryMatch_some hm
        have hstep : findallAux (fuel + 1) (c :: rest) = nm1 :: findallAux fuel r := by
          simp only [findallAux, hm]
        rw [hstep]
        by_cases hi0 : i = 0
        · subst hi0
          rw [List.drop_zero] at hdir
          obtain ⟨sp2, suf2, ht2, hgs2, hgn2⟩ := hdir
          have hsh := tryMatch_shape suf2 hgs2 hgn2
          rw [← ht2, hm] at hsh
          simp only [Option.some_inj, Prod.mk.injEq] at hsh
          rw [← hsh.1]
          exact List.mem_cons_self _ _
        · rcases Nat.lt_or_ge i (9 + sp1.length + nm1.length) with hin | hout
          · exfalso
            rw [hl1] at hdir
            exact no_directive_inside hgs1.2 hgn1.2 (by omega) hin hdir
          · apply List.mem_cons_of_mem
            have hlen := tryMatch_some_length hm
            simp only [List.length_cons] at hlen hf
            apply ih r (i - (9 + sp1.length + nm1.length)) nm (by omega)
            have hdrop : (c :: rest).drop
                ((matchShape sp1 nm1 []).length + (i - (9 + sp1.length + nm1.length))) =
                r.drop (i - (9 + sp1.length + nm1.length)) := by
              rw [hl1, matchShape_split sp1 nm1 r, List.drop_append]
            rw [show (matchShape sp1 nm1 []).length + (i - (9 + sp1.length + nm1.length)) = i
              from by simp [matchShape_length]; omega] at hdrop
            rw [hdrop] at hdir
            exact hdir
      | none =>
        have hstep : findallAux (fuel + 1) (c :: rest) = findallAux fuel rest := by
          simp only [findallAux, hm]
        rw [hstep]
        by_cases hi0 : i = 0
        · subst hi0
          rw [List.drop_zero] at hdir
          obtain ⟨sp2, suf2, ht2, hgs2, hgn2⟩ := hdir
          have hsh := tryMatch_shape suf2 hgs2 hgn2
          rw [← ht2, hm] at hsh
          simp at hsh
        · obtain ⟨j, rfl⟩ : ∃ j, i = j + 1 := ⟨i - 1, by omega⟩
          rw [List.drop_succ_cons] at hdir
          simp only [List.length_cons] at hf
          exact ih rest j nm (by omega) hdir

/-! ### The sort order -/

theorem str_ext {a b : String} (h : a.data = b.data) : a = b := by
  cases a
  cases b
  exact congrArg String.mk h

theorem clLe_refl : ∀ a, clLe a a = true := by
  intro a
  induction a with
  | nil => rfl
  | cons x as ih => simp [clLe, lt_irrefl, ih]

theorem clLe_total : ∀ a b, clLe a b = true ∨ clLe b a = true := by
  intro a
  induction a with
  | nil => intro b; left; rfl
  | cons x as ih =>
    intro b
    cases b with
    | nil => right; rfl
    | cons y bs =>
      by_cases hxy : x < y
      · left; simp [clLe, hxy]
      · by_cases hyx : y < x
        · right; simp [clLe, hyx]
        · have hxe : x = y := le_antisymm (not_lt.mp hyx) (not_lt.mp hxy)
          subst hxe
          rcases ih bs with h | h
          · left; simp [clLe, lt_irrefl, h]
          · right; simp [clLe, lt_irrefl, h]

theorem clLe_antisymm : ∀ a b, clLe a b = true → clLe b a = true → a = b := by
  intro a
  induction a with
  | nil =>
    intro b _ h2
    cases b with
    | nil => rfl
    | cons y bs => simp [clLe] at h2
  | cons x as ih =>
    intro b h1 h2
    cases b with
    | nil => simp [clLe] at h1
    | cons y bs =>
      by_cases hxy : x < y
      · simp [clLe, hxy, lt_asymm hxy] at h2
      · by_cases hyx : y < x
        · simp [clLe, hyx, lt_asymm hyx] at h1
        · have hxe : x = y := le_antisymm (not_lt.mp hyx) (not_lt.mp hxy)
          subst hxe
          simp only [clLe, lt_irrefl, if_false] at h1 h2
          rw [ih bs h1 h2]

theorem clLe_trans : ∀ a b c, clLe a b = true → clLe b c = true → clLe a c = true := by
  intro a
  induction a with
  | nil => intro b c _ _; rfl
  | cons x as ih =>
    intro b c h1 h2
    cases b with
    | nil => simp [clLe] at h1
    | cons y bs =>
      cases c with
      | nil => simp [clLe] at h2
      | cons z cs =>
        by_cases hxy : x < y
        · by_cases hyz : y < z
          · simp [clLe, lt_trans hxy hyz]
          · by_cases hzy : z < y
            · simp [clLe, hyz, hzy] at h2
            · have hye : y = z := le_antisymm (not_lt.mp hzy) (not_lt.mp hyz)
              subst hye
              simp [clLe, hxy]
        · by_cases hyx : y < x
          · simp [clLe, hxy, hyx] at h1
          · have hxe : x = y := le_antisymm (not_lt.mp hyx) (not_lt.mp hxy)
            subst hxe
            simp only [clLe, lt_irrefl, if_false] at h1
            by_cases hxz : x < z
            · simp [clLe, hxz]
            · by_cases hzx : z < x
              · simp [clLe, hxz, hzx] at h2
              · have hxe2 : x = z := le_antisymm (not_lt.mp hzx) (not_lt.mp hxz)
                subst hxe2
                simp only [clLe, lt_irrefl, if_false] at h2 ⊢
                exact ih bs cs h1 h2

theorem pairLeB_total (x y : String × String) : pairLeB x y = true ∨ pairLeB y x = true := by
  unfold pairLeB
  by_cases h : x.1 = y.1
  · simp only [h, if_pos rfl]
    exact clLe_total _ _
  · rw [if_neg h, if_neg (fun hh => h hh.symm)]
    exact clLe_total _ _

theorem pairLeB_antisymm {x y : String × String} (h1 : pairLeB x y = true)
    (h2 : pairLeB y x = true) : x = y := by
  unfold pairLeB at h1 h2
  by_cases h : x.1 = y.1
  · rw [if_pos h] at h1
    rw [if_pos h.symm] at h2
    exact Prod.ext h (str_ext (clLe_antisymm _ _ h1 h2))
  · rw [if_neg h] at h1
    rw [if_neg (fun hh => h hh.symm)] at h2
    exact absurd (str_ext (clLe_antisymm _ _ h1 h2)) h

theorem pairLeB_trans {x y z : String × String} (h1 : pairLeB x y = true)
    (h2 : pairLeB y z = true) : pairLeB x z = true := by
  unfold pairLeB at h1 h2 ⊢
  by_cases hxy : x.1 = y.1
  · by_cases hyz : y.1 = z.1
    · rw [if_pos hxy] at h1
      rw [if_pos hyz] at h2
      rw [if_pos (hxy.trans hyz)]
      exact clLe_trans _ _ _ h1 h2
    · rw [if_neg hyz] at h2
      rw [if_neg (fun hh => hyz (hxy.symm.trans hh)), hxy]
      exact h2
  · by_cases hyz : y.1 = z.1
    · rw [if_neg hxy] at h1
      rw [if_neg (fun hh => hxy (hh.trans hyz.symm)), ← hyz]
      exact h1
    · rw [if_neg hxy] at h1
      rw [if_neg hyz] at h2
      have h3 := clLe_trans _ _ _ h1 h2
      have hxz : x.1 ≠ z.1 := by
        intro hh
        rw [hh] at h1
        exact hyz (str_ext (clLe_antisymm _ _ h2 h1))
      rw [if_neg hxz]
      exact h3

instance : IsTotal (String × String) pairLe := ⟨fun a b => pairLeB_total a b⟩

instance : IsTrans (String × String) pairLe := ⟨fun _ _ _ h1 h2 => pairLeB_trans h1 h2⟩

instance : IsAntisymm (String × String) pairLe := ⟨fun _ _ h1 h2 => pairLeB_antisymm h1 h2⟩

/-- The Schwartzian transform returns a permutation of its input. -/
theorem st_perm (ns : List String) : (st ns).Perm ns := by
  unfold st
  have h2 := (List.perm_insertionSort pairLe (ns.map pairing)).map Prod.snd
  rw [List.map_map] at h2
  have h3 : ns.map (Prod.snd ∘ pairing) = ns := by
    simp [pairing, Function.comp_def]
  rw [h3] at h2
  exact h2

/-- The Schwartzian transform is a function of the multiset of its input:
permuting the input does not change the output. -/
theorem st_congr {l₁ l₂ : List String} (h : l₁.Perm l₂) : st l₁ = st l₂ := by
  unfold st
  congr 1
  refine List.eq_of_perm_of_sorted ?_ (List.sorted_insertionSort pairLe _)
    (List.sorted_insertionSort pairLe _)
  exact (List.perm_insertionSort _ _).trans ((h.map pairing).trans
    (List.perm_insertionSort _ _).symm)

/-- The Schwartzian transform sorts by the case-normalised path string. -/
theorem st_sorted (ns : List String) : (st ns).Pairwise normLe := by
  unfold st
  rw [List.pairwise_map]
  have hs : List.Sorted pairLe ((ns.map pairing).insertionSort pairLe) :=
    List.sorted_insertionSort _ _
  refine hs.imp_of_mem ?_
  intro a b ha hb hab
  have ha2 : a.1 = _my_normcase a.2 := by
    have haa : a ∈ ns.map pairing := (List.perm_insertionSort pairLe _).subset ha
    obtain ⟨n, _, rfl⟩ := List.mem_map.mp haa
    rfl
  have hb2 : b.1 = _my_normcase b.2 := by
    have hbb : b ∈ ns.map pairing := (List.perm_insertionSort pairLe _).subset hb
    obtain ⟨n, _, rfl⟩ := List.mem_map.mp hbb
    rfl
  unfold pairLe pairLeB at hab
  unfold normLe
  rw [← ha2, ← hb2]
  by_cases h : a.1 = b.1
  · rw [h]
    exact clLe_refl _
  · rw [if_neg h] at hab
    exact hab

/-! ### The resolution loop -/

/-- Characterisation of the resolution loop: the resolved list keeps one
entry per reference that `find_file` locates (in reference order, with
multiplicity), and exactly one warning is emitted per unresolved reference,
in order. -/
theorem resolveIncludes_eq (fs : List (String × String)) (dirs : List String)
    (fromPath : String) : ∀ incs : List (List Char),
    resolveIncludes fs dirs fromPath incs =
      (incs.filterMap (fun ref => find_file (strOf ref) fs dirs),
        (incs.filter (fun ref => (find_file (strOf ref) fs dirs).isNone)).map
          (fun ref => mkDepWarning (strOf ref) fromPath)) := by
  intro incs
  induction incs with
  | nil => rfl
  | cons ref rest ih =>
    simp only [resolveIncludes, ih]
    cases hm : find_file (strOf ref) fs dirs with
    | some n => simp [List.filterMap_cons, List.filter_cons, hm]
    | none => simp [List.filterMap_cons, List.filter_cons, hm]

/-! ### Basic facts about the scan function -/

theorem lookupPath_cons_self (p : List String) (ns : List String)
    (rest : List (List String × List String)) :
    lookupPath ((p, ns) :: rest) p = some ns := by
  simp [lookupPath]

/-- The per-node scan only ever touches the two cache slots: path,
directory, existence and contents are preserved. -/
theorem scanCore_preserves (fs : List (String × String)) (p : List String) (node : FNode) :
    ((scanCore fs p node).2.1).path = node.path ∧
    ((scanCore fs p node).2.1).dir = node.dir ∧
    ((scanCore fs p node).2.1).rexists = node.rexists ∧
    ((scanCore fs p node).2.1).contents = node.contents := by
  unfold scanCore
  cases lookupPath node.found_includes p with
  | some ns => simp
  | none => cases hr : node.rexists <;> simp [hr]

theorem effPath_some (env : Option (List String)) (p : List String) :
    effPath env ⟨some p⟩ = p := rfl

theorem lookupPath_nil (key : List String) :
    lookupPath [] key = none := rfl

theorem st_nil : st [] = [] := rfl

/-- A cache hit serves the stored list (re-sorted) and changes nothing. -/
theorem scanCore_of_lookup {fs : List (String × String)} {p : List String} {node : FNode}
    {ns : List String} (h : lookupPath node.found_includes p = some ns) :
    scanCore fs p node = (st ns, node, []) := by
  unfold scanCore
  rw [h]

/-- After any per-node scan, the resolved-list cache holds an entry for the
search path used, and the returned list is that entry, sorted. -/
theorem scanCore_self (fs : List (String × String)) (p : List String) (node : FNode) :
    ∃ ns, lookupPath ((scanCore fs p node).2.1).found_includes p = some ns ∧
      (scanCore fs p node).1 = st ns := by
  unfold scanCore
  cases hl : lookupPath node.found_includes p with
  | some ns => exact ⟨ns, hl, rfl⟩
  | none =>
    cases hr : node.rexists
    · exact ⟨[], by simp [lookupPath_cons_self], rfl⟩
    · exact ⟨_, by simp [lookupPath_cons_self], rfl⟩

/-- A cache miss on an existing node runs the extraction (reusing the raw
cache when set) and the resolution loop, and stores both results. -/
theorem scanCore_miss {fs : List (String × String)} {p : List String} {node : FNode}
    (h0 : lookupPath node.found_includes p = none) (hex : node.rexists = true) :
    scanCore fs p node =
      (st (resolveIncludes fs (node.dir :: p) node.path
          (node.includes.getD (findall node.contents))).1,
        { node with
            includes := some (node.includes.getD (findall node.contents)),
            found_includes := (p, (resolveIncludes fs (node.dir :: p) node.path
              (node.includes.getD (findall node.contents))).1) :: node.found_includes },
        (resolveIncludes fs (node.dir :: p) node.path
          (node.includes.getD (findall node.contents))).2) := by
  unfold scanCore
  rw [h0, hex]
  simp

/-- A cache miss on a node that does not exist stores and returns the
empty list. -/
theorem scanCore_missing {fs : List (String × String)} {p : List String} {node : FNode}
    (h0 : lookupPath node.found_includes p = none) (hex : node.rexists = false) :
    scanCore fs p node =
      (st [], { node with found_includes := (p, []) :: node.found_includes }, []) := by
  unfold scanCore
  rw [h0, hex]
  simp

/-- Every branch of the per-node scan returns through the Schwartzian
transform, so every scan result is sorted by the normalised path. -/
theorem scanCore_sorted (fs : List (String × String)) (p : List String) (node : FNode) :
    ((scanCore fs p node).1).Pairwise normLe := by
  unfold scanCore
  split
  · exact st_sorted _
  · split
    · exact st_sorted _
    · exact st_sorted _

/-- First-match resolution over a directory list split around the first
directory that contains the file. -/
theorem find_file_append {fs : List (String × String)} {name d : String}
    (ds₂ : List String) : ∀ ds₁ : List String, (∀ e ∈ ds₁, (e, name) ∉ fs) →
      (d, name) ∈ fs → find_file name fs (ds₁ ++ d :: ds₂) = some (mkPath d name) := by
  intro ds₁
  induction ds₁ with
  | nil =>
    intro _ hhit
    simp [find_file, hhit]
  | cons e es ih =>
    intro hmiss hhit
    simp only [List.cons_append, find_file]
    rw [if_neg (hmiss e (by simp))]
    exact ih (fun x hx => hmiss x (by simp [hx])) hhit

/-! ### The claims -/

/-- C1: for every source content and every Fortran INCLUDE directive
occurring in that content, the Content Scanner's extracted raw-reference
list (`include_re.findall`) contains that directive's file name: the
scanner never misses a true dependency, although it may report spurious
extra ones (e.g. references inside disabled conditional blocks). -/
theorem c1_scanner_never_misses (s nm : List Char) (h : DirectiveIn s nm) :
    nm ∈ findall s := by
  obtain ⟨i, hi⟩ := h
  exact directive_mem_findallAux s.length s i nm le_rfl hi

/-- C1 witness: a concrete content holding the directive INCLUDE of
`foo.f` whose extracted reference list contains `foo.f`. -/
theorem c1_witness :
    DirectiveIn (contentsIncl "foo.f") "foo.f".data ∧
      "foo.f".data ∈ findall (contentsIncl "foo.f") :=
  ⟨⟨0, " ".data, [], by decide, by decide, by decide⟩,
    c1_scanner_never_misses _ _ ⟨0, " ".data, [], by decide, by decide, by decide⟩⟩

/-- C9: scanning the same unchanged node twice with the same search path
yields identical, identically-ordered dependency lists; the second scan is
served from the per-node `found_includes` cache keyed by the search-path
tuple, whose entry re-sorts to exactly the first scan's output. -/
theorem c9_scan_idempotent (fs : List (String × String)) (env : Option (List String))
    (tgt : FTarget) (node : FNode) :
    (scan fs env (scan fs env tgt node).2.1 (scan fs env tgt node).2.2.1).1 =
        (scan fs env tgt node).1 ∧
      ∃ ns, lookupPath ((scan fs env tgt node).2.2.1).found_includes (effPath env tgt) =
          some ns ∧ (scan fs env tgt node).1 = st ns := by
  simp only [scan]
  rw [effPath_some]
  obtain ⟨ns, hl, hst⟩ := scanCore_self fs (effPath env tgt) node
  refine ⟨?_, ns, hl, hst⟩
  rw [scanCore_of_lookup hl, hst]

/-- C4: every scan's returned dependency list is sorted by the case-folded
normalised path string of each node, and the Schwartzian transform is a
pure function of the multiset of resolved nodes: permuting its input never
changes the output, which is itself a permutation of the input; so the
order does not depend on the order references appear in the source text or
on discovery order. -/
theorem c4_output_sorted_order_free (fs : List (String × String))
    (env : Option (List String)) (tgt : FTarget) (node : FNode)
    (l₁ l₂ : List String) (h : l₁.Perm l₂) :
    ((scan fs env tgt node).1).Pairwise normLe ∧ st l₁ = st l₂ ∧ (st l₁).Perm l₁ := by
  refine ⟨?_, st_congr h, st_perm l₁⟩
  simp only [scan]
  exact scanCore_sorted fs (effPath env tgt) node

/-- C4 witness: a concrete scan whose output is sorted by normalised path,
and two permuted resolved lists with equal sorted output. -/
theorem c4_witness :
    ((scan [("S", "a.inc")] none ⟨some []⟩ (freshNode contentsAA)).1).Pairwise normLe ∧
      st ["S/b", "T/a"] = st ["T/a", "S/b"] ∧ (st ["S/b", "T/a"]).Perm ["S/b", "T/a"] :=
  c4_output_sorted_order_free [("S", "a.inc")] none ⟨some []⟩ (freshNode contentsAA)
    ["S/b", "T/a"] ["T/a", "S/b"] (by decide)

/-- C3: resolution of a raw reference tries the includer's own directory
first and then the configured search-path directories in their given
order, returning the node from the first directory containing an existing
file of that name: if every directory before `d` in the attempted list
`sourceDir :: f77path` lacks the file and `d` has it, resolution returns
the node in `d`. -/
theorem c3_first_directory_wins (fs : List (String × String)) (sourceDir : String)
    (f77path ds₁ ds₂ : List String) (d name : String)
    (hsplit : sourceDir :: f77path = ds₁ ++ d :: ds₂)
    (hmiss : ∀ e ∈ ds₁, (e, name) ∉ fs)
    (hhit : (d, name) ∈ fs) :
    find_file name fs (sourceDir :: f77path) = some (mkPath d name) := by
  rw [hsplit]
  exact find_file_append ds₂ ds₁ hmiss hhit

/-- C3 witness: directories D1 and D2, in that order, both contain `x`
(and the includer's directory S does not); resolving `x` returns the node
in D1. -/
theorem c3_witness :
    (∀ e ∈ (["S"] : List String), (e, "x") ∉ [("D1", "x"), ("D2", "x")]) ∧
      find_file "x" [("D1", "x"), ("D2", "x")] ("S" :: ["D1", "D2"]) =
        some (mkPath "D1" "x") :=
  ⟨by decide,
    c3_first_directory_wins [("D1", "x"), ("D2", "x")] "S" ["D1", "D2"] ["S"] ["D2"]
      "D1" "x" rfl (by decide) (by decide)⟩

/-- C2: after a node's content changes between two scans (the signature
change resetting the per-node caches, per the spec's invalidation rule,
modelled by `setContents`), the second scan recomputes the raw include
references from the new content with `include_re.findall` and caches and
uses that recomputed list; the cached list from the old content is not
reused. -/
theorem c2_content_change_recomputes (fs : List (String × String))
    (env : Option (List String)) (tgt : FTarget) (node : FNode) (c : List Char)
    (hex : node.rexists = true) :
    ((scan fs env (scan fs env tgt node).2.1
        (setContents (scan fs env tgt node).2.2.1 c)).2.2.1).includes = some (findall c) ∧
      (scan fs env (scan fs env tgt node).2.1
          (setContents (scan fs env tgt node).2.2.1 c)).1 =
        st (resolveIncludes fs (node.dir :: effPath env tgt) node.path (findall c)).1 := by
  have hpres := scanCore_preserves fs (effPath env tgt) node
  simp only [scan, effPath_some]
  simp only [@scanCore_miss fs (effPath env tgt)
    (setContents (scanCore fs (effPath env tgt) node).2.1 c) rfl
    (hpres.2.2.1.trans hex)]
  rw [show (setContents (scanCore fs (effPath env tgt) node).2.1 c).dir = node.dir
      from hpres.2.1,
    show (setContents (scanCore fs (effPath env tgt) node).2.1 c).path = node.path
      from hpres.1]
  exact ⟨rfl, rfl⟩

/-- C2 witness: a concrete node scanned once, given new content, and
scanned again: the second scan stores and uses the references extracted
from the new content. -/
theorem c2_witness :
    (freshNode (contentsIncl "a.inc")).rexists = true ∧
      (((scan [] none (scan [] none ⟨none⟩ (freshNode (contentsIncl "a.inc"))).2.1
          (setContents (scan [] none ⟨none⟩ (freshNode (contentsIncl "a.inc"))).2.2.1
            (contentsIncl "x.h"))).2.2.1).includes = some (findall (contentsIncl "x.h")) ∧
        (scan [] none (scan [] none ⟨none⟩ (freshNode (contentsIncl "a.inc"))).2.1
            (setContents (scan [] none ⟨none⟩ (freshNode (contentsIncl "a.inc"))).2.2.1
              (contentsIncl "x.h"))).1 =
          st (resolveIncludes [] ((freshNode (contentsIncl "a.inc")).dir ::
                effPath none (⟨none⟩ : FTarget))
              (freshNode (contentsIncl "a.inc")).path (findall (contentsIncl "x.h"))).1) :=
  ⟨rfl, c2_content_change_recomputes [] none ⟨none⟩ (freshNode (contentsIncl "a.inc"))
    (contentsIncl "x.h") rfl⟩

/-- C5 counterexample: two scans that differ only in the search path
attempted both fail to resolve the same reference and emit byte-identical
warning events, so the emitted event does not carry the search path
attempted, contrary to the claim. -/
theorem c5_counterexample :
    (scan [] none ⟨some ["P1"]⟩ (freshNode (contentsIncl "missing.h"))).2.2.2 =
        [mkDepWarning "missing.h" "S/main.f"] ∧
      (scan [] none ⟨some ["P2"]⟩ (freshNode (contentsIncl "missing.h"))).2.2.2 =
        [mkDepWarning "missing.h" "S/main.f"] ∧
      (["P1"] : List String) ≠ ["P2"] := by decide

/-- C5 amended: for every raw reference that resolves to no file in the
attempted search path, the scan does not fail: the reference is omitted
from the result while every other reference is still resolved, and exactly
one warning event is emitted per unresolved reference, carrying the
reference text and the including artifact's identity (the search path
attempted is not part of the event). -/
theorem c5_unresolved_is_nonfatal (fs : List (String × String))
    (env : Option (List String)) (p : List String) (node : FNode)
    (incs : List (List Char)) (h0 : node.found_includes = [])
    (hex : node.rexists = true) (hinc : node.includes = some incs) :
    (scan fs env ⟨some p⟩ node).2.2.2 =
        (incs.filter (fun ref => (find_file (strOf ref) fs (node.dir :: p)).isNone)).map
          (fun ref => mkDepWarning (strOf ref) node.path) ∧
      (scan fs env ⟨some p⟩ node).1 =
        st (incs.filterMap (fun ref => find_file (strOf ref) fs (node.dir :: p))) := by
  simp only [scan, effPath_some]
  simp only [@scanCore_miss fs p node (by rw [h0]; rfl) hex, hinc, Option.getD_some]
  rw [resolveIncludes_eq]
  exact ⟨rfl, rfl⟩

/-- C5 witness: a node with one resolvable and one unresolvable cached
reference: one warning event for the missing file, and a result list
holding only the resolved node. -/
theorem c5_witness :
    nodeC5.includes = some ["a.inc".data, "missing.h".data] ∧
      ((scan [("S", "a.inc")] none ⟨some ["P"]⟩ nodeC5).2.2.2 =
          ((["a.inc".data, "missing.h".data].filter (fun ref =>
              (find_file (strOf ref) [("S", "a.inc")] (nodeC5.dir :: ["P"])).isNone)).map
            (fun ref => mkDepWarning (strOf ref) nodeC5.path)) ∧
        (scan [("S", "a.inc")] none ⟨some ["P"]⟩ nodeC5).1 =
          st (["a.inc".data, "missing.h".data].filterMap (fun ref =>
            find_file (strOf ref) [("S", "a.inc")] (nodeC5.dir :: ["P"])))) :=
  ⟨rfl, c5_unresolved_is_nonfatal [("S", "a.inc")] none ["P"] nodeC5
    ["a.inc".data, "missing.h".data] rfl rfl rfl⟩

/-- C6: a node that does not currently exist on storage scans to the empty
dependency list without error, and discovery is only deferred: once the
node is produced (which, per the spec's node lifecycle, resets its
per-pass scan caches), a later scan with the same search path yields the
dependencies actually discovered in the produced content instead of the
earlier empty result. -/
theorem c6_missing_node_defers (fs : List (String × String))
    (env : Option (List String)) (p : List String) (node : FNode) (c : List Char)
    (hex : node.rexists = false) (h0 : node.found_includes = []) :
    (scan fs env ⟨some p⟩ node).1 = [] ∧
      (scan fs env ⟨some p⟩ (produce (scan fs env ⟨some p⟩ node).2.2.1 c)).1 =
        st (resolveIncludes fs (node.dir :: p) node.path (findall c)).1 := by
  constructor
  · simp only [scan, effPath_some]
    simp only [@scanCore_missing fs p node (by rw [h0]; rfl) hex]
    rfl
  · simp only [scan, effPath_some]
    simp only [@scanCore_missing fs p node (by rw [h0]; rfl) hex]
    simp only [@scanCore_miss fs p
      (produce { node with found_includes := (p, []) :: node.found_includes } c)
      rfl rfl]
    rfl

/-- C6 witness: a not-yet-existing node scans to the empty list; after
being produced with contents including `a.inc`, the same search path
discovers the real dependency. -/
theorem c6_witness :
    nodeC6.rexists = false ∧
      ((scan [("S", "a.inc")] none ⟨some []⟩ nodeC6).1 = [] ∧
        (scan [("S", "a.inc")] none ⟨some []⟩
            (produce (scan [("S", "a.inc")] none ⟨some []⟩ nodeC6).2.2.1
              (contentsIncl "a.inc"))).1 =
          st (resolveIncludes [("S", "a.inc")] (nodeC6.dir :: []) nodeC6.path
            (findall (contentsIncl "a.inc"))).1) :=
  ⟨rfl, c6_missing_node_defers [("S", "a.inc")] none [] nodeC6 (contentsIncl "a.inc")
    rfl rfl⟩

/-- C7 counterexample: a file referenced twice by the scanned content
appears twice in the returned dependency list: the scan deduplicates
nothing, contrary to the claim. -/
theorem c7_counterexample :
    (scan [("S", "a.inc")] none ⟨some []⟩ (freshNode contentsAA)).1 =
        [mkPath "S" "a.inc", mkPath "S" "a.inc"] ∧
      ¬ ((scan [("S", "a.inc")] none ⟨some []⟩ (freshNode contentsAA)).1).Nodup := by
  decide

/-- C7 amended: the returned dependency list preserves multiplicity
instead of deduplicating: it is a permutation (deterministically
reordered) of the per-reference resolution results, so a file referenced
n times with all occurrences resolving appears n times. -/
theorem c7_multiplicity_preserved (fs : List (String × String))
    (env : Option (List String)) (p : List String) (node : FNode)
    (incs : List (List Char)) (h0 : node.found_includes = [])
    (hex : node.rexists = true) (hinc : node.includes = some incs) :
    ((scan fs env ⟨some p⟩ node).1).Perm
      (incs.filterMap (fun ref => find_file (strOf ref) fs (node.dir :: p))) := by
  simp only [scan, effPath_some]
  simp only [@scanCore_miss fs p node (by rw [h0]; rfl) hex, hinc, Option.getD_some]
  rw [resolveIncludes_eq]
  exact st_perm _

/-- C7 witness: a node whose cached raw references name `a.inc` twice: the
output is a permutation of the doubly-resolved list, keeping both
occurrences. -/
theorem c7_witness :
    nodeC7.includes = some ["a.inc".data, "a.inc".data] ∧
      ((scan [("S", "a.inc")] none ⟨some []⟩ nodeC7).1).Perm
        (["a.inc".data, "a.inc".data].filterMap (fun ref =>
          find_file (strOf ref) [("S", "a.inc")] (nodeC7.dir :: []))) :=
  ⟨rfl, c7_multiplicity_preserved [("S", "a.inc")] none [] nodeC7
    ["a.inc".data, "a.inc".data] rfl rfl rfl⟩

/-- C8: include cycles are safe: when A's scan discovers B and B's scan
discovers A, recursively scanning A still terminates (the driver is a
total function), raises no error, and returns a (finite) dependency list
containing B: on revisiting A the driver stops recursing along that path
instead of recursing unboundedly. -/
theorem c8_cycle_safe (tbl : String → Option FNode) (fs : List (String × String))
    (env : Option (List String)) (p : List String) (A B : String)
    (nodeA nodeB : FNode) (fuel : Nat)
    (hA : tbl A = some nodeA) (_hB : tbl B = some nodeB)
    (hAB : B ∈ (scan fs env ⟨some p⟩ nodeA).1)
    (_hBA : A ∈ (scan fs env ⟨some p⟩ nodeB).1) :
    B ∈ deepScan tbl fs env p (fuel + 1) [] A := by
  simp only [deepScan, hA, List.not_mem_nil, if_false]
  exact List.mem_append_left _ hAB

/-- C8 witness: the concrete two-file cycle `a.f` ↔ `b.f`: deep-scanning
`a.f` yields a list containing `b.f`. -/
theorem c8_witness :
    tbl8 "S/a.f" = some nodeA8 ∧
      "S/b.f" ∈ (scan fs8 none ⟨some []⟩ nodeA8).1 ∧
      "S/a.f" ∈ (scan fs8 none ⟨some []⟩ nodeB8).1 ∧
      "S/b.f" ∈ deepScan tbl8 fs8 none [] 2 [] "S/a.f" :=
  ⟨by decide, by decide, by decide,
    c8_cycle_safe tbl8 fs8 none [] "S/a.f" "S/b.f" nodeA8 nodeB8 1
      (by decide) (by decide) (by decide) (by decide)⟩

/-- C10: when the construction environment defines no F77PATH variable,
the KeyError is caught and the configured search path defaults to the
empty tuple (cached on the target); no error escapes the scan, and the raw
references are resolved against only the includer's own directory. -/
theorem c10_no_f77path_empty_default (fs : List (String × String)) (node : FNode)
    (incs : List (List Char)) (h0 : node.found_includes = [])
    (hex : node.rexists = true) (hinc : node.includes = some incs) :
    (scan fs none ⟨none⟩ node).2.1.f77path = some [] ∧
      (scan fs none ⟨none⟩ node).1 =
        st (incs.filterMap (fun ref => find_file (strOf ref) fs [node.dir])) := by
  refine ⟨rfl, ?_⟩
  simp only [scan]
  have hp : effPath none (⟨none⟩ : FTarget) = ([] : List String) := rfl
  simp only [hp]
  simp only [@scanCore_miss fs [] node (by rw [h0]; rfl) hex, hinc, Option.getD_some]
  rw [resolveIncludes_eq]

/-- C10 witness: a scan with no F77PATH in the environment caches the
empty search path and resolves only against the includer's directory. -/
theorem c10_witness :
    nodeC5.includes = some ["a.inc".data, "missing.h".data] ∧
      ((scan [("S", "a.inc")] none ⟨none⟩ nodeC5).2.1.f77path = some [] ∧
        (scan [("S", "a.inc")] none ⟨none⟩ nodeC5).1 =
          st (["a.inc".data, "missing.h".data].filterMap (fun ref =>
            find_file (strOf ref) [("S", "a.inc")] [nodeC5.dir]))) :=
  ⟨rfl, c10_no_f77path_empty_default [("S", "a.inc")] nodeC5
    ["a.inc".data, "missing.h".data] rfl rfl rfl⟩

end SconsFortran
